import Mathlib

/-!
# ufo-log: the hybrid wait of the MPSC queue consumer

A shallow embedding of `ufo::mpsc_hybrid_wait`
(`src/ufo_log/util/mpsc_hybrid_wait.hpp`) and of `ufo::literal`
(`include/ufo_log/util/literal.hpp`).

* The waiter object is a record of its data members `m_cfg`, `m_spins`, `m_yields` and
  `m_state`; every member function is a function from the record to the new record (and
  the returned value).
* `uword` is declared in `ufo_log/util/integer.hpp`; its width in bits is the parameter
  `bits` of the functions that do `uword` arithmetic.  A `uword` is a `Nat` and every
  arithmetic result is reduced `% 2 ^ bits`.
* The only member shared with the producer threads is `m_state`.  Producers only ever run
  `unblock()`, which stores `unblocked`; what the producers do while the consumer is inside
  `block()` is given to `block` as a `wait_env`: for every load of `m_state` by the consumer
  it says whether a producer store landed since the consumer last touched `m_state`.
-/

namespace ufo

/-- Modelled from the spec: the struct `mpsc_hybrid_wait_cfg`, declared in
`ufo_log/util/mpsc_hybrid_wait_cfg.hpp`; the four members are the ones
`mpsc_hybrid_wait` reads and writes (`spin_max`, `yield_max`, `never_block`, `block_us`). -/
structure mpsc_hybrid_wait_cfg where
  spin_max : Nat
  yield_max : Nat
  never_block : Bool
  block_us : Nat
deriving DecidableEq

/-- The private `enum state` of the class (lines 146-151). -/
inductive state where
  | unblocked
  | blocked
deriving DecidableEq

/-- The data members of `mpsc_hybrid_wait` (lines 153-158).  The mutex and the condition
variable carry no value of their own: a `notify_one` that finds no waiter is forgotten. -/
structure mpsc_hybrid_wait where
  m_cfg : mpsc_hybrid_wait_cfg
  m_spins : Nat
  m_yields : Nat
  m_state : state
deriving DecidableEq

/-- The value of `(uword) -1`: the largest `uword`. -/
def uword_max (bits : Nat) : Nat := 2 ^ bits - 1

/-- The members of a configuration are representable in a `uword`. -/
def cfg_in_range (bits : Nat) (c : mpsc_hybrid_wait_cfg) : Prop :=
  c.spin_max < 2 ^ bits ∧ c.yield_max < 2 ^ bits ∧ c.block_us < 2 ^ bits

instance (bits : Nat) (c : mpsc_hybrid_wait_cfg) : Decidable (cfg_in_range bits c) := by
  unfold cfg_in_range; infer_instance

/-- Every `uword` member of the waiter holds a value of a `uword`. -/
def in_range (bits : Nat) (s : mpsc_hybrid_wait) : Prop :=
  cfg_in_range bits s.m_cfg ∧ s.m_spins < 2 ^ bits ∧ s.m_yields < 2 ^ bits

instance (bits : Nat) (s : mpsc_hybrid_wait) : Decidable (in_range bits s) := by
  unfold in_range; infer_instance

/-- `reset()`, lines 73-78. -/
def reset (s : mpsc_hybrid_wait) : mpsc_hybrid_wait :=
  { s with m_spins := 0, m_yields := 0, m_state := state.unblocked }

/-- The constructor `mpsc_hybrid_wait()`, lines 64-71: the four assignments to `m_cfg`, then
`reset()`, which gives the other three members their first value. -/
def mpsc_hybrid_wait.construct : mpsc_hybrid_wait :=
  reset
    { m_cfg := { spin_max := 50000, yield_max := 200, never_block := false, block_us := 2000 }
      m_spins := 0
      m_yields := 0
      m_state := state.unblocked }

/-- `unblock()`, lines 80-84: the store to `m_state`; `m_cond.notify_one()` changes no
member. -/
def unblock (s : mpsc_hybrid_wait) : mpsc_hybrid_wait :=
  { s with m_state := state.unblocked }

/-- What the producers do around one evaluation of the wait predicate: whether an
`unblock()` store lands before the first load of `m_state` (line 103) and whether one lands
during the `yield`, before the second load (line 107). -/
structure pred_env where
  before_first_load : Bool
  before_second_load : Bool
deriving DecidableEq

/-- What happens around one `m_cond.wait_for` call (lines 112-116): the producers' stores
around the predicate evaluation made on entry, around the one made after every wakeup of
the condition variable that comes before the timeout (notified or spurious), around the
last one, made once the timeout has expired, and before the load of the assertion
(line 117). -/
structure wait_env where
  on_entry : pred_env
  wakeups : List pred_env
  after_timeout : pred_env
  before_assert : Bool
deriving DecidableEq

/-- The environment in which no producer calls `unblock()` and the condition variable is
never woken before the timeout. -/
def wait_env.quiet : wait_env :=
  { on_entry := ⟨false, false⟩, wakeups := [], after_timeout := ⟨false, false⟩,
    before_assert := false }

/-- A producer's `unblock()` store lands (or not) between two steps of the consumer. -/
def producer_stores (lands : Bool) (s : mpsc_hybrid_wait) : mpsc_hybrid_wait :=
  if lands then unblock s else s

/-- The lambda `pred` of `block()`, lines 101-110: load `m_state`; if it reads `blocked`,
yield and load again; the result is whether the last load read `unblocked`. -/
def pred (s : mpsc_hybrid_wait) (e : pred_env) : mpsc_hybrid_wait × Bool :=
  let s1 := producer_stores e.before_first_load s
  let st := s1.m_state
  if st = state.blocked then
    let s2 := producer_stores e.before_second_load s1
    let st2 := s2.m_state
    (s2, decide (st2 = state.unblocked))
  else
    (s1, decide (st = state.unblocked))

/-- The loop of the timed wait with a predicate, entered after the predicate returned
false: `while (!pred()) { if (wait_until (lock, t) == timeout) return pred(); } return true;`
with one element of `wakeups` for every wakeup that comes before the timeout. -/
def wait_loop (s : mpsc_hybrid_wait) (wakeups : List pred_env) (after_timeout : pred_env) :
    mpsc_hybrid_wait × Bool :=
  match wakeups with
  | [] => pred s after_timeout
  | e :: es =>
    let r := pred s e
    if r.2 then (r.1, true) else wait_loop r.1 es after_timeout

/-- The call `m_cond.wait_for (m_dummy_mutex, microseconds (block_us), pred)`, lines 112-116:
the value of the predicate when the wait ends. -/
def wait_for (s : mpsc_hybrid_wait) (env : wait_env) : mpsc_hybrid_wait × Bool :=
  let r := pred s env.on_entry
  if r.2 then (r.1, true) else wait_loop r.1 env.wakeups env.after_timeout

/-- The three branches of `block()`. -/
inductive phase where
  | spin
  | yield
  | block
deriving DecidableEq

/-- The branch conditions of `block()`, lines 88, 93 and 99. -/
def block_phase (s : mpsc_hybrid_wait) : phase :=
  if s.m_spins < s.m_cfg.spin_max then phase.spin
  else if s.m_yields < s.m_cfg.yield_max then phase.yield
  else phase.block

/-- `block()`, lines 86-121.  The result is `none` when the assertion of line 117 fails. -/
def block (bits : Nat) (s : mpsc_hybrid_wait) (env : wait_env) :
    Option (mpsc_hybrid_wait × Bool) :=
  match block_phase s with
  | phase.spin =>
    some ({ s with m_spins := (s.m_spins + 1) % 2 ^ bits }, false)
  | phase.yield =>
    some ({ s with m_yields :=
              (s.m_yields + (if !s.m_cfg.never_block then 1 else 0)) % 2 ^ bits }, false)
  | phase.block =>
    let s1 := { s with m_state := state.blocked }
    let r := wait_for s1 env
    let is_unblocked := r.2
    let s2 := producer_stores env.before_assert r.1
    if !is_unblocked || decide (s2.m_state = state.unblocked) then
      some ({ s2 with m_state := state.unblocked }, !is_unblocked)
    else
      none

/-- `would_block_now_hint()`, lines 123-126. -/
def would_block_now_hint (s : mpsc_hybrid_wait) : Bool :=
  decide (s.m_spins ≥ s.m_cfg.spin_max) && decide (s.m_yields ≥ s.m_cfg.yield_max)

/-- `never_blocks()`, lines 128-131. -/
def never_blocks (s : mpsc_hybrid_wait) : Bool :=
  s.m_cfg.never_block

/-- `get_cfg()`, lines 133-136. -/
def get_cfg (s : mpsc_hybrid_wait) : mpsc_hybrid_wait_cfg :=
  s.m_cfg

/-- `set_cfg (cfg)`, lines 138-142. -/
def set_cfg (bits : Nat) (s : mpsc_hybrid_wait) (cfg : mpsc_hybrid_wait_cfg) :
    mpsc_hybrid_wait :=
  let s1 := { s with m_cfg := cfg }
  { s1 with m_cfg :=
      { s1.m_cfg with
        yield_max := if s1.m_cfg.never_block then uword_max bits else s1.m_cfg.yield_max } }

/-- How the timed wait of a `block()` call ends. -/
inductive wait_outcome where
  | notified
  | timed_out
deriving DecidableEq

/-- The outcome of the timed wait that `block()` starts in state `s`: `notified` when
`wait_for` returns true (the predicate read `unblocked`), `timed_out` otherwise. -/
def block_wait_outcome (s : mpsc_hybrid_wait) (env : wait_env) : wait_outcome :=
  if (wait_for { s with m_state := state.blocked } env).2 then wait_outcome.notified
  else wait_outcome.timed_out

/-- A call of a public member function that changes the waiter. -/
inductive call where
  | reset
  | unblock
  | block (env : wait_env)
  | set_cfg (cfg : mpsc_hybrid_wait_cfg)
deriving DecidableEq

/-- One call: the new waiter and, for a `block()` call, the branch it took and the value
it returned. -/
def step (bits : Nat) (s : mpsc_hybrid_wait) : call → Option (mpsc_hybrid_wait × List (phase × Bool))
  | call.reset => some (reset s, [])
  | call.unblock => some (unblock s, [])
  | call.set_cfg cfg => some (set_cfg bits s cfg, [])
  | call.block env =>
    match block bits s env with
    | some (s1, ret) => some (s1, [(block_phase s, ret)])
    | none => none

/-- A sequence of calls: the final waiter and, in order, the branch and the returned value
of every `block()` call of the sequence. -/
def run (bits : Nat) (s : mpsc_hybrid_wait) : List call → Option (mpsc_hybrid_wait × List (phase × Bool))
  | [] => some (s, [])
  | c :: cs =>
    match step bits s c with
    | none => none
    | some (s1, t1) =>
      match run bits s1 cs with
      | none => none
      | some (s2, t2) => some (s2, t1 ++ t2)

/-- The place of a branch on the ladder of `block()`. -/
def phase.rank : phase → Nat
  | phase.spin => 0
  | phase.yield => 1
  | phase.block => 2

/-- The call is `block()` or `unblock()`: the calls made inside one waiting episode. -/
def call.in_episode : call → Bool
  | call.block _ => true
  | call.unblock => true
  | _ => false

/-- The call is not `set_cfg`. -/
def call.keeps_cfg : call → Bool
  | call.set_cfg _ => false
  | _ => true

/-- The call is `block()`. -/
def call.is_block : call → Bool
  | call.block _ => true
  | _ => false

/-- The steps left on the ladder before the block phase: the spins and the yields that the
budgets still allow. -/
def steps_left (s : mpsc_hybrid_wait) : Nat :=
  (s.m_cfg.spin_max - s.m_spins) + (s.m_cfg.yield_max - s.m_yields)

/-- The relation between the counters and the budgets of the installed configuration:
no counter is past its budget, and yields are only counted once the spins are used up. -/
def ladder_invariant (s : mpsc_hybrid_wait) : Prop :=
  s.m_spins ≤ s.m_cfg.spin_max ∧ s.m_yields ≤ s.m_cfg.yield_max ∧
    (0 < s.m_yields → s.m_spins = s.m_cfg.spin_max)

instance (s : mpsc_hybrid_wait) : Decidable (ladder_invariant s) := by
  unfold ladder_invariant; infer_instance

/-- The data members of `ufo::literal` (`include/ufo_log/util/literal.hpp`, lines 63-64):
`m_lit` points to the character array the literal was built from, here the array itself,
and `m_size`. -/
structure literal where
  m_lit : List Char
  m_size : Nat
deriving DecidableEq

/-- The constructor `literal (const char (&arr)[N])`, lines 49-55, with `N` the number of
elements of `arr`.  A program whose `static_assert (N >= 1)` fails does not compile: no
literal is made, the result is `none`. -/
def literal.construct (arr : List Char) : Option literal :=
  if arr.length ≥ 1 then some { m_lit := arr, m_size := arr.length - 1 } else none

/-- `literal::size()`, line 58. -/
def literal.size (l : literal) : Nat :=
  l.m_size

/-- `literal::operator[] (uword i)`, line 59: `m_lit[i]`; `none` stands for the read past
the end of the array, which has no defined value. -/
def literal.operator_index (l : literal) (i : Nat) : Option Char :=
  l.m_lit[i]?

/-! ## The timed wait changes `m_state` only -/

theorem producer_stores_frame (lands : Bool) (s : mpsc_hybrid_wait) :
    ∃ st, producer_stores lands s = { s with m_state := st } ∧
      (s.m_state = state.unblocked → st = state.unblocked) := by
  cases lands
  · exact ⟨s.m_state, rfl, fun h => h⟩
  · exact ⟨state.unblocked, rfl, fun _ => rfl⟩

theorem pred_frame (s : mpsc_hybrid_wait) (e : pred_env) :
    ∃ st, (pred s e).1 = { s with m_state := st } ∧
      ((pred s e).2 = true → st = state.unblocked) := by
  obtain ⟨c, sp, y, st⟩ := s
  obtain ⟨a, b⟩ := e
  cases a <;> cases b <;> cases st <;> simp [pred, producer_stores, unblock]

theorem wait_loop_frame (wakeups : List pred_env) (after_timeout : pred_env) :
    ∀ s : mpsc_hybrid_wait, ∃ st, (wait_loop s wakeups after_timeout).1 = { s with m_state := st } ∧
      ((wait_loop s wakeups after_timeout).2 = true → st = state.unblocked) := by
  induction wakeups with
  | nil => intro s; exact pred_frame s after_timeout
  | cons e es ih =>
    intro s
    obtain ⟨st, h1, h2⟩ := pred_frame s e
    by_cases hp : (pred s e).2 = true
    · refine ⟨st, ?_, fun _ => h2 hp⟩
      simp [wait_loop, hp, h1]
    · obtain ⟨st2, h3, h4⟩ := ih (pred s e).1
      refine ⟨st2, ?_, ?_⟩
      · simp only [wait_loop, hp, Bool.false_eq_true, if_false]
        rw [h3, h1]
      · simp only [wait_loop, hp, Bool.false_eq_true, if_false]
        exact h4

theorem wait_for_frame (s : mpsc_hybrid_wait) (env : wait_env) :
    ∃ st, (wait_for s env).1 = { s with m_state := st } ∧
      ((wait_for s env).2 = true → st = state.unblocked) := by
  obtain ⟨st, h1, h2⟩ := pred_frame s env.on_entry
  by_cases hp : (pred s env.on_entry).2 = true
  · refine ⟨st, ?_, fun _ => h2 hp⟩
    simp [wait_for, hp, h1]
  · obtain ⟨st2, h3, h4⟩ := wait_loop_frame env.wakeups env.after_timeout (pred s env.on_entry).1
    refine ⟨st2, ?_, ?_⟩
    · simp only [wait_for, hp, Bool.false_eq_true, if_false]
      rw [h3, h1]
    · simp only [wait_for, hp, Bool.false_eq_true, if_false]
      exact h4

/-! ## `block()` branch by branch -/

theorem block_spin (bits : Nat) (s : mpsc_hybrid_wait) (env : wait_env)
    (h : block_phase s = phase.spin) :
    block bits s env = some ({ s with m_spins := (s.m_spins + 1) % 2 ^ bits }, false) := by
  simp [block, h]

theorem block_yield (bits : Nat) (s : mpsc_hybrid_wait) (env : wait_env)
    (h : block_phase s = phase.yield) :
    block bits s env =
      some ({ s with m_yields :=
                (s.m_yields + (if !s.m_cfg.never_block then 1 else 0)) % 2 ^ bits }, false) := by
  simp [block, h]

theorem block_block (bits : Nat) (s : mpsc_hybrid_wait) (env : wait_env)
    (h : block_phase s = phase.block) :
    block bits s env =
      some ({ s with m_state := state.unblocked },
            !(wait_for { s with m_state := state.blocked } env).2) := by
  obtain ⟨st, h1, h2⟩ := wait_for_frame { s with m_state := state.blocked } env
  obtain ⟨st2, h3, h4⟩ := producer_stores_frame env.before_assert
    (wait_for { s with m_state := state.blocked } env).1
  simp only [block, h]
  rw [h3, h1]
  by_cases hp : (wait_for { s with m_state := state.blocked } env).2 = true
  · have : st2 = state.unblocked := h4 (by rw [h1]; exact h2 hp)
    simp [hp, this]
  · simp [hp]

theorem block_phase_spin_iff (s : mpsc_hybrid_wait) :
    block_phase s = phase.spin ↔ s.m_spins < s.m_cfg.spin_max := by
  unfold block_phase
  split_ifs <;> simp [*]

theorem block_phase_yield_iff (s : mpsc_hybrid_wait) :
    block_phase s = phase.yield ↔ s.m_cfg.spin_max ≤ s.m_spins ∧ s.m_yields < s.m_cfg.yield_max := by
  unfold block_phase
  split_ifs <;> simp [*]
  omega

theorem block_phase_block_iff (s : mpsc_hybrid_wait) :
    block_phase s = phase.block ↔ s.m_cfg.spin_max ≤ s.m_spins ∧ s.m_cfg.yield_max ≤ s.m_yields := by
  unfold block_phase
  split_ifs <;> simp [*]
  omega

/-- The assertion of line 117 holds in every call: `block()` always returns. -/
theorem block_returns (bits : Nat) (s : mpsc_hybrid_wait) (env : wait_env) :
    ∃ s1 ret, block bits s env = some (s1, ret) := by
  cases h : block_phase s
  · exact ⟨_, _, block_spin bits s env h⟩
  · exact ⟨_, _, block_yield bits s env h⟩
  · exact ⟨_, _, block_block bits s env h⟩

/-! ## The hint, the block phase, reset and unblock -/

theorem hint_iff_block_phase (s : mpsc_hybrid_wait) :
    would_block_now_hint s = true ↔ block_phase s = phase.block := by
  rw [block_phase_block_iff]
  simp [would_block_now_hint]

/-- C4: `would_block_now_hint()` is true exactly when both counters have reached their
budgets, and that is exactly when the next `block()` call takes the timed-block branch:
the call returns, and the branch it records is `phase.block` iff the hint was true. -/
theorem would_block_now_hint_iff (bits : Nat) (s : mpsc_hybrid_wait) (env : wait_env) :
    (would_block_now_hint s = true ↔
        (s.m_spins ≥ s.m_cfg.spin_max ∧ s.m_yields ≥ s.m_cfg.yield_max)) ∧
      (would_block_now_hint s = true ↔ block_phase s = phase.block) ∧
      (would_block_now_hint s = false ↔
        (block_phase s = phase.spin ∨ block_phase s = phase.yield)) ∧
      ∃ s1 p ret, step bits s (call.block env) = some (s1, [(p, ret)]) ∧
        (would_block_now_hint s = true ↔ p = phase.block) := by
  have h1 := hint_iff_block_phase s
  refine ⟨by simp [would_block_now_hint], h1, ?_, ?_⟩
  · cases hb : would_block_now_hint s
    · have : ¬ block_phase s = phase.block := fun h => by
        rw [h1.mpr h] at hb; exact Bool.noConfusion hb
      cases hp : block_phase s <;> simp_all
    · have := h1.mp hb
      simp [this]
  · obtain ⟨s1, ret, hr⟩ := block_returns bits s env
    exact ⟨s1, block_phase s, ret, by simp [step, hr], h1⟩

/-- C5: when both budgets are exhausted, `block()` returns true iff the timed wait timed
out (so false iff it was notified), leaves `m_state` unblocked in either case, and leaves
the two counters and the configuration as they were. -/
theorem block_phase_three (bits : Nat) (s : mpsc_hybrid_wait) (env : wait_env)
    (h : would_block_now_hint s = true) :
    ∃ s1 ret, block bits s env = some (s1, ret) ∧
      (ret = true ↔ block_wait_outcome s env = wait_outcome.timed_out) ∧
      (ret = false ↔ block_wait_outcome s env = wait_outcome.notified) ∧
      s1.m_state = state.unblocked ∧
      s1.m_spins = s.m_spins ∧ s1.m_yields = s.m_yields ∧ s1.m_cfg = s.m_cfg := by
  have hb := block_block bits s env ((hint_iff_block_phase s).mp h)
  refine ⟨_, _, hb, ?_, ?_, rfl, rfl, rfl, rfl⟩
  · unfold block_wait_outcome
    cases (wait_for { s with m_state := state.blocked } env).2 <;> simp
  · unfold block_wait_outcome
    cases (wait_for { s with m_state := state.blocked } env).2 <;> simp

/-- C7: `reset()` zeroes both counters, leaves `m_state` unblocked, keeps the configuration,
and is idempotent. -/
theorem reset_effect (s : mpsc_hybrid_wait) :
    (reset s).m_spins = 0 ∧ (reset s).m_yields = 0 ∧ (reset s).m_state = state.unblocked ∧
      (reset s).m_cfg = s.m_cfg ∧ reset (reset s) = reset s :=
  ⟨rfl, rfl, rfl, rfl, rfl⟩

/-- C9: `unblock()` twice leaves the state that `unblock()` once leaves, and `unblock()`
on a waiter whose `m_state` is already unblocked changes nothing. -/
theorem unblock_idempotent (s : mpsc_hybrid_wait) :
    unblock (unblock s) = unblock s ∧ (s.m_state = state.unblocked → unblock s = s) := by
  refine ⟨rfl, fun h => ?_⟩
  obtain ⟨c, sp, y, st⟩ := s
  simp only at h
  simp [unblock, h]

/-! ## Sequences of calls -/

theorem step_block_eq (bits : Nat) (s s1 : mpsc_hybrid_wait) (env : wait_env) (ret : Bool)
    (h : block bits s env = some (s1, ret)) :
    step bits s (call.block env) = some (s1, [(block_phase s, ret)]) := by
  simp [step, h]

theorem run_cons_eq (bits : Nat) (s s1 s2 : mpsc_hybrid_wait) (c : call) (cs : List call)
    (t1 t2 : List (phase × Bool)) (h1 : step bits s c = some (s1, t1))
    (h2 : run bits s1 cs = some (s2, t2)) :
    run bits s (c :: cs) = some (s2, t1 ++ t2) := by
  simp [run, h1, h2]

theorem step_returns (bits : Nat) (s : mpsc_hybrid_wait) (c : call) :
    ∃ s1 tr, step bits s c = some (s1, tr) := by
  cases c with
  | reset => exact ⟨_, _, rfl⟩
  | unblock => exact ⟨_, _, rfl⟩
  | set_cfg cfg => exact ⟨_, _, rfl⟩
  | block env =>
    obtain ⟨s1, ret, h⟩ := block_returns bits s env
    exact ⟨_, _, step_block_eq bits s s1 env ret h⟩

theorem step_m_state (bits : Nat) (s s1 : mpsc_hybrid_wait) (c : call)
    (tr : List (phase × Bool)) (h : step bits s c = some (s1, tr)) :
    s1.m_state = state.unblocked ∨ s1.m_state = s.m_state := by
  cases c with
  | reset => simp only [step, Option.some.injEq, Prod.mk.injEq] at h; rw [← h.1]; exact Or.inl rfl
  | unblock => simp only [step, Option.some.injEq, Prod.mk.injEq] at h; rw [← h.1]; exact Or.inl rfl
  | set_cfg cfg =>
    simp only [step, Option.some.injEq, Prod.mk.injEq] at h; rw [← h.1]; exact Or.inr rfl
  | block env =>
    cases hp : block_phase s
    · rw [step_block_eq bits s _ env _ (block_spin bits s env hp)] at h
      simp only [Option.some.injEq, Prod.mk.injEq] at h; rw [← h.1]; exact Or.inr rfl
    · rw [step_block_eq bits s _ env _ (block_yield bits s env hp)] at h
      simp only [Option.some.injEq, Prod.mk.injEq] at h; rw [← h.1]; exact Or.inr rfl
    · rw [step_block_eq bits s _ env _ (block_block bits s env hp)] at h
      simp only [Option.some.injEq, Prod.mk.injEq] at h; rw [← h.1]; exact Or.inl rfl

theorem run_keeps_unblocked (bits : Nat) (calls : List call) :
    ∀ s : mpsc_hybrid_wait, s.m_state = state.unblocked →
      ∃ s1 tr, run bits s calls = some (s1, tr) ∧ s1.m_state = state.unblocked := by
  induction calls with
  | nil => intro s hs; exact ⟨s, [], rfl, hs⟩
  | cons c cs ih =>
    intro s hs
    obtain ⟨s1, t1, h1⟩ := step_returns bits s c
    have hs1 : s1.m_state = state.unblocked := by
      rcases step_m_state bits s s1 c t1 h1 with h | h
      · exact h
      · rw [h]; exact hs
    obtain ⟨s2, t2, h2, hs2⟩ := ih s1 hs1
    exact ⟨s2, t1 ++ t2, run_cons_eq bits s s1 s2 c cs t1 t2 h1 h2, hs2⟩

/-- C3 fails when both budgets are zero: with `spin_max = 0` and `yield_max = 0` the
`block()` call made right after `reset()` takes the block branch and, when nothing wakes
it, returns true. -/
theorem block_after_reset_zero_budgets :
    block_phase (reset (set_cfg 64 mpsc_hybrid_wait.construct ⟨0, 0, false, 2000⟩))
        = phase.block ∧
      (block 64 (reset (set_cfg 64 mpsc_hybrid_wait.construct ⟨0, 0, false, 2000⟩))
        wait_env.quiet).map Prod.snd = some true := by
  decide

/-- C3 (amended): whatever state the previous episode left, when the configuration has a
spin or a yield budget above zero the `block()` call made right after `reset()` returns
false and does not take the block branch; it takes the spin step when `spin_max > 0` and
the yield step otherwise. -/
theorem block_after_reset (bits : Nat) (s : mpsc_hybrid_wait) (env : wait_env)
    (h : 0 < s.m_cfg.spin_max ∨ 0 < s.m_cfg.yield_max) :
    (∃ s1, block bits (reset s) env = some (s1, false)) ∧
      block_phase (reset s) ≠ phase.block ∧
      block_phase (reset s) = (if 0 < s.m_cfg.spin_max then phase.spin else phase.yield) := by
  by_cases hs : 0 < s.m_cfg.spin_max
  · have hp : block_phase (reset s) = phase.spin := by
      rw [block_phase_spin_iff]; exact hs
    refine ⟨⟨_, block_spin bits (reset s) env hp⟩, ?_, ?_⟩
    · rw [hp]; exact fun h => phase.noConfusion h
    · rw [hp, if_pos hs]
  · have hy : 0 < s.m_cfg.yield_max := h.resolve_left hs
    have hp : block_phase (reset s) = phase.yield := by
      rw [block_phase_yield_iff]
      exact ⟨by show s.m_cfg.spin_max ≤ 0; omega, hy⟩
    refine ⟨⟨_, block_yield bits (reset s) env hp⟩, ?_, ?_⟩
    · rw [hp]; exact fun h => phase.noConfusion h
    · rw [hp, if_neg hs]

/-- C6: `m_state` is unblocked after construction and after every completed call of every
sequence of `reset()`, `unblock()`, `block()` and `set_cfg()` calls made on a constructed
waiter.  From any state, `reset()` and `unblock()` leave it unblocked, `set_cfg()` leaves it
as it was, and `block()` leaves it unblocked when it took the block branch (the `blocked`
stored at line 111 does not outlive the call) and as it was otherwise. -/
theorem m_state_unblocked_outside_wait (bits : Nat) (calls : List call)
    (s : mpsc_hybrid_wait) (env : wait_env) (cfg : mpsc_hybrid_wait_cfg) :
    mpsc_hybrid_wait.construct.m_state = state.unblocked ∧
      (∃ s1 tr, run bits mpsc_hybrid_wait.construct calls = some (s1, tr) ∧
        s1.m_state = state.unblocked) ∧
      (reset s).m_state = state.unblocked ∧
      (unblock s).m_state = state.unblocked ∧
      (set_cfg bits s cfg).m_state = s.m_state ∧
      (∃ s1 ret, block bits s env = some (s1, ret) ∧
        s1.m_state = (if block_phase s = phase.block then state.unblocked else s.m_state)) := by
  refine ⟨rfl, run_keeps_unblocked bits calls _ rfl, rfl, rfl, rfl, ?_⟩
  cases hp : block_phase s
  · exact ⟨_, _, block_spin bits s env hp, by simp⟩
  · exact ⟨_, _, block_yield bits s env hp, by simp⟩
  · exact ⟨_, _, block_block bits s env hp, by simp⟩

/-! ## The ladder never goes down inside an episode -/

theorem one_le_rank_iff (s : mpsc_hybrid_wait) :
    1 ≤ (block_phase s).rank ↔ s.m_cfg.spin_max ≤ s.m_spins := by
  unfold block_phase
  split_ifs <;> simp [phase.rank] <;> omega

theorem block_rank_mono (bits : Nat) (s s1 : mpsc_hybrid_wait) (env : wait_env) (ret : Bool)
    (h : block bits s env = some (s1, ret)) :
    (block_phase s).rank ≤ (block_phase s1).rank := by
  cases hp : block_phase s
  · exact Nat.zero_le _
  · rw [block_yield bits s env hp] at h
    simp only [Option.some.injEq, Prod.mk.injEq] at h
    have h1 : 1 ≤ (block_phase s).rank := by rw [hp]; exact Nat.le_refl _
    rw [one_le_rank_iff] at h1
    have h2 : 1 ≤ (block_phase s1).rank := by
      rw [one_le_rank_iff, ← h.1]; exact h1
    exact h2
  · rw [block_block bits s env hp] at h
    simp only [Option.some.injEq, Prod.mk.injEq] at h
    have h2 : block_phase s1 = phase.block := by
      rw [← h.1]
      rw [block_phase_block_iff] at hp ⊢
      exact hp
    rw [h2]

theorem step_rank_mono (bits : Nat) (s s1 : mpsc_hybrid_wait) (c : call)
    (tr : List (phase × Bool)) (hc : c.in_episode = true) (h : step bits s c = some (s1, tr)) :
    (block_phase s).rank ≤ (block_phase s1).rank ∧ ∀ x ∈ tr, x.1 = block_phase s := by
  cases c with
  | reset => exact absurd hc (by simp [call.in_episode])
  | set_cfg cfg => exact absurd hc (by simp [call.in_episode])
  | unblock =>
    simp only [step, Option.some.injEq, Prod.mk.injEq] at h
    rw [← h.1, ← h.2]
    exact ⟨Nat.le_refl _, fun x hx => absurd hx (List.not_mem_nil x)⟩
  | block env =>
    obtain ⟨s2, ret, hb⟩ := block_returns bits s env
    rw [step_block_eq bits s s2 env ret hb] at h
    simp only [Option.some.injEq, Prod.mk.injEq] at h
    rw [← h.1, ← h.2]
    refine ⟨block_rank_mono bits s s2 env ret hb, fun x hx => ?_⟩
    rw [List.mem_singleton] at hx
    rw [hx]

theorem run_rank_lower_bound (bits : Nat) (calls : List call) :
    ∀ s : mpsc_hybrid_wait, (∀ c ∈ calls, c.in_episode = true) →
      ∃ s1 tr, run bits s calls = some (s1, tr) ∧
        (∀ x ∈ tr, (block_phase s).rank ≤ x.1.rank) ∧
        List.Pairwise (fun p q => p.rank ≤ q.rank) (tr.map Prod.fst) := by
  induction calls with
  | nil => intro s _; exact ⟨s, [], rfl, fun x hx => absurd hx (List.not_mem_nil x), List.Pairwise.nil⟩
  | cons c cs ih =>
    intro s hcs
    obtain ⟨s1, t1, h1⟩ := step_returns bits s c
    obtain ⟨hm, ht1⟩ := step_rank_mono bits s s1 c t1 (hcs c (List.mem_cons_self c cs)) h1
    obtain ⟨s2, t2, h2, hlow, hpw⟩ := ih s1 (fun d hd => hcs d (List.mem_cons_of_mem c hd))
    refine ⟨s2, t1 ++ t2, run_cons_eq bits s s1 s2 c cs t1 t2 h1 h2, ?_, ?_⟩
    · intro x hx
      rcases List.mem_append.mp hx with hx | hx
      · rw [ht1 x hx]
      · exact Nat.le_trans hm (hlow x hx)
    · rw [List.map_append, List.pairwise_append]
      refine ⟨?_, hpw, ?_⟩
      · cases c with
        | reset => exact absurd (hcs _ (List.mem_cons_self _ cs)) (by simp [call.in_episode])
        | set_cfg cfg => exact absurd (hcs _ (List.mem_cons_self _ cs)) (by simp [call.in_episode])
        | unblock =>
          simp only [step, Option.some.injEq, Prod.mk.injEq] at h1
          rw [← h1.2]; exact List.Pairwise.nil
        | block env =>
          obtain ⟨s3, ret, hb⟩ := block_returns bits s env
          rw [step_block_eq bits s s3 env ret hb] at h1
          simp only [Option.some.injEq, Prod.mk.injEq] at h1
          rw [← h1.2]
          exact List.pairwise_singleton _ _
      · intro p hp q hq
        obtain ⟨x, hx, hxp⟩ := List.mem_map.mp hp
        obtain ⟨y, hy, hyq⟩ := List.mem_map.mp hq
        rw [← hxp, ← hyq, ht1 x hx]
        exact Nat.le_trans hm (hlow y hy)

/-- C10: in a sequence of `block()` and `unblock()` calls (no `reset()`, no `set_cfg()`),
from any state, every call returns and the branches taken by the successive `block()` calls
never go down the ladder spin, yield, block: a call that comes after a yield step is no
spin step and a call that comes after a block step is a block step.  `reset()` puts the
ladder back at its first rung: spin when `spin_max > 0`. -/
theorem ladder_monotone_in_episode (bits : Nat) (s : mpsc_hybrid_wait) (calls : List call)
    (hc : ∀ c ∈ calls, c.in_episode = true) :
    (∃ s1 tr, run bits s calls = some (s1, tr) ∧
        List.Pairwise (fun p q => p.rank ≤ q.rank) (tr.map Prod.fst) ∧
        (∀ i j : Fin tr.length, i < j →
          ((tr.get i).1 = phase.yield → (tr.get j).1 ≠ phase.spin) ∧
          ((tr.get i).1 = phase.block → (tr.get j).1 = phase.block))) ∧
      block_phase (reset s) =
        (if 0 < s.m_cfg.spin_max then phase.spin
         else if 0 < s.m_cfg.yield_max then phase.yield else phase.block) := by
  refine ⟨?_, rfl⟩
  obtain ⟨s1, tr, hr, _, hpw⟩ := run_rank_lower_bound bits calls s hc
  refine ⟨s1, tr, hr, hpw, fun i j hij => ?_⟩
  have hle : (tr.get i).1.rank ≤ (tr.get j).1.rank := by
    have := List.pairwise_iff_get.mp hpw ⟨i.1, by simp⟩ ⟨j.1, by simp⟩ hij
    simpa using this
  constructor
  · intro hi hj
    rw [hi, hj] at hle
    exact absurd hle (by decide)
  · intro hi
    rw [hi] at hle
    cases hj : (tr.get j).1
    · rw [hj] at hle; exact absurd hle (by decide)
    · rw [hj] at hle; exact absurd hle (by decide)
    · rfl

/-! ## The ladder is bounded by the two budgets -/

theorem steps_left_eq_zero_iff (s : mpsc_hybrid_wait) :
    steps_left s = 0 ↔ block_phase s = phase.block := by
  rw [block_phase_block_iff]
  unfold steps_left
  omega

theorem block_steps_left (bits : Nat) (s : mpsc_hybrid_wait) (env : wait_env)
    (hr : cfg_in_range bits s.m_cfg) (hn : s.m_cfg.never_block = false) :
    ∃ s1 ret, block bits s env = some (s1, ret) ∧ s1.m_cfg = s.m_cfg ∧
      ((block_phase s ≠ phase.block ∧ ret = false ∧ steps_left s1 + 1 = steps_left s) ∨
        (block_phase s = phase.block ∧ steps_left s1 = steps_left s ∧ steps_left s = 0)) := by
  obtain ⟨hsp, hy, _⟩ := hr
  cases hp : block_phase s
  · refine ⟨_, _, block_spin bits s env hp, rfl, Or.inl ⟨fun h => phase.noConfusion h, rfl, ?_⟩⟩
    rw [block_phase_spin_iff] at hp
    have hm : (s.m_spins + 1) % 2 ^ bits = s.m_spins + 1 := Nat.mod_eq_of_lt (by omega)
    simp only [steps_left, hm]
    omega
  · refine ⟨_, _, block_yield bits s env hp, rfl, Or.inl ⟨fun h => phase.noConfusion h, rfl, ?_⟩⟩
    rw [block_phase_yield_iff] at hp
    have hm : (s.m_yields + 1) % 2 ^ bits = s.m_yields + 1 := Nat.mod_eq_of_lt (by omega)
    simp only [steps_left, hn, Bool.not_false, if_true, hm]
    omega
  · refine ⟨_, _, block_block bits s env hp, rfl, Or.inr ⟨rfl, rfl, ?_⟩⟩
    exact (steps_left_eq_zero_iff s).mpr hp

theorem run_steps_left (bits : Nat) (calls : List call) :
    ∀ s : mpsc_hybrid_wait, cfg_in_range bits s.m_cfg → s.m_cfg.never_block = false →
      (∀ c ∈ calls, c.in_episode = true) →
      ∃ s1 tr, run bits s calls = some (s1, tr) ∧ s1.m_cfg = s.m_cfg ∧
        tr.length = calls.countP call.is_block ∧
        (tr.filter (fun x => decide (x.1 ≠ phase.block))).length + steps_left s1
          = steps_left s := by
  induction calls with
  | nil => intro s _ _ _; exact ⟨s, [], rfl, rfl, rfl, by simp⟩
  | cons c cs ih =>
    intro s hr hn hcs
    have hcs1 : ∀ d ∈ cs, d.in_episode = true := fun d hd => hcs d (List.mem_cons_of_mem c hd)
    cases c with
    | reset => exact absurd (hcs _ (List.mem_cons_self _ cs)) (by simp [call.in_episode])
    | set_cfg cfg => exact absurd (hcs _ (List.mem_cons_self _ cs)) (by simp [call.in_episode])
    | unblock =>
      obtain ⟨s2, t2, h2, hc2, hl2, hf2⟩ := ih (unblock s) hr hn hcs1
      refine ⟨s2, [] ++ t2, run_cons_eq bits s (unblock s) s2 _ cs [] t2 rfl h2, hc2, ?_, ?_⟩
      · simp [hl2, call.is_block]
      · simpa using hf2
    | block env =>
      obtain ⟨s1, ret, hb, hc1, hcase⟩ := block_steps_left bits s env hr hn
      obtain ⟨s2, t2, h2, hc2, hl2, hf2⟩ := ih s1 (hc1 ▸ hr) (hc1 ▸ hn) hcs1
      refine ⟨s2, [(block_phase s, ret)] ++ t2,
        run_cons_eq bits s s1 s2 _ cs _ t2 (step_block_eq bits s s1 env ret hb) h2,
        hc2.trans hc1, ?_, ?_⟩
      · simp [hl2, call.is_block]
      · simp only [ne_eq] at hf2
        rcases hcase with ⟨hp, _, hs⟩ | ⟨hp, hs, _⟩
        · simp only [List.singleton_append, List.filter_cons, hp, ne_eq, not_false_eq_true,
            decide_True, if_true, List.length_cons]
          omega
        · simp only [List.singleton_append, List.filter_cons, hp, ne_eq, not_true_eq_false,
            decide_False, Bool.false_eq_true, if_false]
          omega

/-- C8: `unblock()` leaves both counters and the configuration as they were; and in a
sequence of `block()` and `unblock()` calls from any state (a freshly reset one in
particular) whose configuration fits the `uword` and has `never_block` false, every call
returns and at most `spin_max + yield_max` of the `block()` calls take the spin or the yield
branch, wherever the `unblock()` calls fall: every other `block()` call takes the block
branch. -/
theorem ladder_bounded (bits : Nat) (s : mpsc_hybrid_wait) (calls : List call)
    (hr : cfg_in_range bits s.m_cfg) (hn : s.m_cfg.never_block = false)
    (hc : ∀ c ∈ calls, c.in_episode = true) :
    ((unblock s).m_spins = s.m_spins ∧ (unblock s).m_yields = s.m_yields ∧
        (unblock s).m_cfg = s.m_cfg) ∧
      ∃ s1 tr, run bits s calls = some (s1, tr) ∧
        tr.length = calls.countP call.is_block ∧
        (tr.filter (fun x => decide (x.1 ≠ phase.block))).length
          ≤ s.m_cfg.spin_max + s.m_cfg.yield_max := by
  refine ⟨⟨rfl, rfl, rfl⟩, ?_⟩
  obtain ⟨s1, tr, h1, _, hl, hf⟩ := run_steps_left bits calls s hr hn hc
  refine ⟨s1, tr, h1, hl, ?_⟩
  have : steps_left s ≤ s.m_cfg.spin_max + s.m_cfg.yield_max := by
    unfold steps_left; omega
  omega

/-! ## The first `spin_max + yield_max` calls of an episode -/

theorem ladder_run (bits : Nat) (envs : List wait_env) :
    ∀ s : mpsc_hybrid_wait, cfg_in_range bits s.m_cfg → s.m_cfg.never_block = false →
      envs.length ≤ steps_left s →
      ∃ s1 tr, run bits s (envs.map call.block) = some (s1, tr) ∧ s1.m_cfg = s.m_cfg ∧
        steps_left s1 + envs.length = steps_left s ∧ tr.length = envs.length ∧
        ∀ x ∈ tr, x.1 ≠ phase.block ∧ x.2 = false := by
  induction envs with
  | nil =>
    intro s _ _ _
    exact ⟨s, [], rfl, rfl, rfl, rfl, fun x hx => absurd hx (List.not_mem_nil x)⟩
  | cons e es ih =>
    intro s hr hn hl
    simp only [List.length_cons] at hl
    obtain ⟨s1, ret, hb, hc1, hcase⟩ := block_steps_left bits s e hr hn
    rcases hcase with ⟨hp, hret, hs⟩ | ⟨_, _, h0⟩
    · obtain ⟨s2, t2, h2, hc2, hs2, hl2, hall⟩ := ih s1 (hc1 ▸ hr) (hc1 ▸ hn) (by omega)
      refine ⟨s2, [(block_phase s, ret)] ++ t2,
        run_cons_eq bits s s1 s2 _ _ _ t2 (step_block_eq bits s s1 e ret hb) h2,
        hc2.trans hc1, ?_, ?_, ?_⟩
      · simp only [List.length_cons]; omega
      · simp [hl2]
      · intro x hx
        rcases List.mem_append.mp hx with hx | hx
        · rw [List.mem_singleton] at hx
          rw [hx]
          exact ⟨hp, hret⟩
        · exact hall x hx
    · omega

/-- C1 fails for a configuration with `never_block` set: the waiter configured with
`spin_max = 0`, `yield_max = 1`, `never_block = true` and then reset does not have its hint
true after `spin_max + yield_max = 1` call of `block()`, nor after any other number of
calls (so not after `spin_max` plus the forced yield budget either): every call returns
and the next one still does not take the block branch. -/
theorem never_block_hint_stays_false :
    (run 64 (reset (set_cfg 64 mpsc_hybrid_wait.construct ⟨0, 1, true, 2000⟩))
        [call.block wait_env.quiet]).map (fun r => would_block_now_hint r.1) = some false ∧
      ∀ envs : List wait_env, ∃ s1 tr,
        run 64 (reset (set_cfg 64 mpsc_hybrid_wait.construct ⟨0, 1, true, 2000⟩))
          (envs.map call.block) = some (s1, tr) ∧
        would_block_now_hint s1 = false ∧ block_phase s1 ≠ phase.block := by
  refine ⟨by decide, fun envs => ?_⟩
  have key : ∀ (es : List wait_env) (s : mpsc_hybrid_wait),
      s = reset (set_cfg 64 mpsc_hybrid_wait.construct ⟨0, 1, true, 2000⟩) →
      ∃ s1 tr, run 64 s (es.map call.block) = some (s1, tr) ∧ s1 = s := by
    intro es
    induction es with
    | nil => intro s _; exact ⟨s, [], rfl, rfl⟩
    | cons e es ih =>
      intro s hs
      have hb : block 64 s e = some (s, false) := by
        rw [block_yield 64 s e (by rw [hs]; decide), hs]
        decide
      obtain ⟨s2, t2, h2, he⟩ := ih s hs
      exact ⟨s2, _, run_cons_eq 64 s s s2 _ _ _ t2 (step_block_eq 64 s s e false hb) h2, he⟩
  obtain ⟨s1, tr, h1, he⟩ := key envs _ rfl
  refine ⟨s1, tr, h1, ?_, ?_⟩
  · rw [he]; decide
  · rw [he]; decide

/-- C1 (amended): for every configuration that fits the `uword` and has `never_block`
false, on a freshly reset waiter and with `block()` calls only: before each of the first
`spin_max + yield_max` calls the hint is false and the call returns false; after the last
of them the hint is true and the next call takes the block branch. -/
theorem ladder_boundary (bits : Nat) (s : mpsc_hybrid_wait) (envs : List wait_env)
    (hr : cfg_in_range bits s.m_cfg) (hn : s.m_cfg.never_block = false)
    (hl : envs.length = s.m_cfg.spin_max + s.m_cfg.yield_max) :
    (∀ k, k < envs.length → ∀ env : wait_env, ∃ sk tr,
        run bits (reset s) ((envs.take k).map call.block) = some (sk, tr) ∧
        would_block_now_hint sk = false ∧ ∃ s1, block bits sk env = some (s1, false)) ∧
      ∃ s1 tr, run bits (reset s) (envs.map call.block) = some (s1, tr) ∧
        tr.length = envs.length ∧ (∀ x ∈ tr, x.2 = false) ∧
        would_block_now_hint s1 = true ∧ block_phase s1 = phase.block := by
  have h0 : steps_left (reset s) = s.m_cfg.spin_max + s.m_cfg.yield_max := by
    simp [steps_left, reset]
  constructor
  · intro k hk env
    have hlen : (envs.take k).length = k := by
      rw [List.length_take]; omega
    obtain ⟨sk, tr, h1, hc, hs, _, _⟩ :=
      ladder_run bits (envs.take k) (reset s) hr hn (by rw [hlen, h0]; omega)
    rw [hlen, h0] at hs
    have hne : block_phase sk ≠ phase.block := by
      intro hp
      have := (steps_left_eq_zero_iff sk).mpr hp
      omega
    refine ⟨sk, tr, h1, ?_, ?_⟩
    · cases hh : would_block_now_hint sk
      · rfl
      · exact absurd ((hint_iff_block_phase sk).mp hh) hne
    · obtain ⟨s1, ret, hb, _, hcase⟩ :=
        block_steps_left bits sk env (hc ▸ hr) (hc ▸ hn)
      rcases hcase with ⟨_, hret, _⟩ | ⟨hp, _, _⟩
      · exact ⟨s1, hret ▸ hb⟩
      · exact absurd hp hne
  · obtain ⟨s1, tr, h1, _, hs, hlt, hall⟩ :=
      ladder_run bits envs (reset s) hr hn (by rw [h0, hl])
    have hz : steps_left s1 = 0 := by rw [h0] at hs; omega
    have hp := (steps_left_eq_zero_iff s1).mp hz
    exact ⟨s1, tr, h1, hlt, fun x hx => (hall x hx).2, (hint_iff_block_phase s1).mpr hp, hp⟩

/-! ## `never_block` -/

theorem never_block_step (bits : Nat) (s : mpsc_hybrid_wait) (c : call)
    (hnb : s.m_cfg.never_block = true) (hym : s.m_cfg.yield_max = uword_max bits)
    (hy : s.m_yields < uword_max bits) (hc : c.keeps_cfg = true) :
    ∃ s1 tr, step bits s c = some (s1, tr) ∧ s1.m_cfg = s.m_cfg ∧
      s1.m_yields < uword_max bits ∧ ∀ x ∈ tr, x.1 ≠ phase.block ∧ x.2 = false := by
  cases c with
  | set_cfg cfg => exact absurd hc (by simp [call.keeps_cfg])
  | reset =>
    refine ⟨reset s, [], rfl, rfl, ?_, fun x hx => absurd hx (List.not_mem_nil x)⟩
    show 0 < uword_max bits
    omega
  | unblock =>
    exact ⟨unblock s, [], rfl, rfl, hy, fun x hx => absurd hx (List.not_mem_nil x)⟩
  | block env =>
    cases hp : block_phase s
    · refine ⟨_, _, step_block_eq bits s _ env _ (block_spin bits s env hp), rfl, hy, ?_⟩
      intro x hx
      rw [List.mem_singleton] at hx
      rw [hx, hp]
      exact ⟨fun h => phase.noConfusion h, rfl⟩
    · refine ⟨_, _, step_block_eq bits s _ env _ (block_yield bits s env hp), rfl, ?_, ?_⟩
      · have hlt : s.m_yields < 2 ^ bits := by unfold uword_max at hy; omega
        simp only [hnb, Bool.not_true, Bool.false_eq_true, if_false, Nat.add_zero,
          Nat.mod_eq_of_lt hlt]
        exact hy
      · intro x hx
        rw [List.mem_singleton] at hx
        rw [hx, hp]
        exact ⟨fun h => phase.noConfusion h, rfl⟩
    · rw [block_phase_block_iff, hym] at hp
      omega

/-- What `never_block` does give: when a configuration with `never_block` set is installed by
`set_cfg` on a waiter whose yield counter is below the largest `uword` (any waiter that was
reset, or never yielded that often), no later `block()` call of a sequence of `block()`,
`reset()` and `unblock()` calls takes the block branch or returns true. -/
theorem never_block_run (bits : Nat) (calls : List call) :
    ∀ s : mpsc_hybrid_wait, s.m_cfg.never_block = true → s.m_cfg.yield_max = uword_max bits →
      s.m_yields < uword_max bits → (∀ c ∈ calls, c.keeps_cfg = true) →
      ∃ s1 tr, run bits s calls = some (s1, tr) ∧
        ∀ x ∈ tr, x.1 ≠ phase.block ∧ x.2 = false := by
  induction calls with
  | nil => intro s _ _ _ _; exact ⟨s, [], rfl, fun x hx => absurd hx (List.not_mem_nil x)⟩
  | cons c cs ih =>
    intro s hnb hym hy hcs
    obtain ⟨s1, t1, h1, hc1, hy1, hall1⟩ :=
      never_block_step bits s c hnb hym hy (hcs c (List.mem_cons_self c cs))
    obtain ⟨s2, t2, h2, hall2⟩ := ih s1 (hc1 ▸ hnb) (hc1 ▸ hym) hy1
      (fun d hd => hcs d (List.mem_cons_of_mem c hd))
    refine ⟨s2, t1 ++ t2, run_cons_eq bits s s1 s2 c cs t1 t2 h1 h2, fun x hx => ?_⟩
    rcases List.mem_append.mp hx with hx | hx
    · exact hall1 x hx
    · exact hall2 x hx

theorem yield_run (bits : Nat) (env : wait_env) (n : Nat) :
    ∀ s : mpsc_hybrid_wait, s.m_cfg.never_block = false → s.m_cfg.spin_max ≤ s.m_spins →
      s.m_yields + n ≤ s.m_cfg.yield_max → s.m_cfg.yield_max < 2 ^ bits →
      run bits s (List.replicate n (call.block env))
        = some ({ s with m_yields := s.m_yields + n }, List.replicate n (phase.yield, false)) := by
  induction n with
  | zero => intro s _ _ _ _; rfl
  | succ n ih =>
    intro s hn hsp hy hlt
    have hp : block_phase s = phase.yield := by
      rw [block_phase_yield_iff]; exact ⟨hsp, by omega⟩
    have hm : (s.m_yields + 1) % 2 ^ bits = s.m_yields + 1 := Nat.mod_eq_of_lt (by omega)
    have hb : block bits s env = some ({ s with m_yields := s.m_yields + 1 }, false) := by
      rw [block_yield bits s env hp]
      simp only [hn, Bool.not_false, if_true, hm]
    have h2 := ih { s with m_yields := s.m_yields + 1 } hn hsp (by show s.m_yields + 1 + n ≤ s.m_cfg.yield_max; omega) hlt
    have h3 := run_cons_eq bits s _ _ _ _ _ _ (step_block_eq bits s _ env false hb) h2
    rw [List.replicate_succ, h3, hp]
    have : s.m_yields + 1 + n = s.m_yields + (n + 1) := by omega
    simp only [this]
    rfl

/-- C2, the call sequence on which the code blocks although `never_block` is set, for a
`uword` of 32 bits: construct; `set_cfg` with `spin_max = 0`, `yield_max = 4294967295`
(the largest `uword`) and `never_block = false`; 4294967295 `block()` calls, each a yield
step, which leave `m_yields = 4294967295`; `set_cfg` with `never_block = true`.  The
`block()` call that follows takes the block branch and, with no producer about, returns
true. -/
theorem never_block_blocks_on_saturated_yields :
    ∃ s tr,
      run 32 (set_cfg 32 mpsc_hybrid_wait.construct ⟨0, 4294967295, false, 2000⟩)
        (List.replicate 4294967295 (call.block wait_env.quiet)) = some (s, tr) ∧
      s.m_yields = 4294967295 ∧
      never_blocks (set_cfg 32 s ⟨0, 200, true, 2000⟩) = true ∧
      block_phase (set_cfg 32 s ⟨0, 200, true, 2000⟩) = phase.block ∧
      (block 32 (set_cfg 32 s ⟨0, 200, true, 2000⟩) wait_env.quiet).map Prod.snd
        = some true := by
  refine ⟨_, _, yield_run 32 wait_env.quiet 4294967295
    (set_cfg 32 mpsc_hybrid_wait.construct ⟨0, 4294967295, false, 2000⟩)
    rfl (by decide) (by decide) (by decide), ?_, ?_, ?_, ?_⟩
  · decide
  · rfl
  · decide
  · decide

/-! ## The theorems at concrete waiters -/

/-- The boundary theorem on a waiter with `spin_max = 2`, `yield_max = 1` and three `block()`
calls. -/
theorem ladder_boundary_witness :
    cfg_in_range 64 (set_cfg 64 mpsc_hybrid_wait.construct ⟨2, 1, false, 2000⟩).m_cfg ∧
      (set_cfg 64 mpsc_hybrid_wait.construct ⟨2, 1, false, 2000⟩).m_cfg.never_block = false ∧
      ((∀ k, k < [wait_env.quiet, wait_env.quiet, wait_env.quiet].length →
          ∀ env : wait_env, ∃ sk tr,
            run 64 (reset (set_cfg 64 mpsc_hybrid_wait.construct ⟨2, 1, false, 2000⟩))
              (([wait_env.quiet, wait_env.quiet, wait_env.quiet].take k).map call.block)
              = some (sk, tr) ∧
            would_block_now_hint sk = false ∧ ∃ s1, block 64 sk env = some (s1, false)) ∧
        ∃ s1 tr,
          run 64 (reset (set_cfg 64 mpsc_hybrid_wait.construct ⟨2, 1, false, 2000⟩))
            ([wait_env.quiet, wait_env.quiet, wait_env.quiet].map call.block) = some (s1, tr) ∧
          tr.length = [wait_env.quiet, wait_env.quiet, wait_env.quiet].length ∧
          (∀ x ∈ tr, x.2 = false) ∧
          would_block_now_hint s1 = true ∧ block_phase s1 = phase.block) :=
  ⟨by decide, by decide,
    ladder_boundary 64 (set_cfg 64 mpsc_hybrid_wait.construct ⟨2, 1, false, 2000⟩)
      [wait_env.quiet, wait_env.quiet, wait_env.quiet] (by decide) (by decide) (by decide)⟩

/-- The first `block()` after `reset()` on the default-constructed waiter. -/
theorem block_after_reset_witness :
    (0 < mpsc_hybrid_wait.construct.m_cfg.spin_max ∨
        0 < mpsc_hybrid_wait.construct.m_cfg.yield_max) ∧
      ((∃ s1, block 64 (reset mpsc_hybrid_wait.construct) wait_env.quiet = some (s1, false)) ∧
        block_phase (reset mpsc_hybrid_wait.construct) ≠ phase.block ∧
        block_phase (reset mpsc_hybrid_wait.construct) =
          (if 0 < mpsc_hybrid_wait.construct.m_cfg.spin_max then phase.spin
           else phase.yield)) :=
  ⟨by decide, block_after_reset 64 mpsc_hybrid_wait.construct wait_env.quiet (by decide)⟩

/-- The block branch on a waiter with both budgets zero, with no producer about. -/
theorem block_phase_three_witness :
    would_block_now_hint (set_cfg 64 mpsc_hybrid_wait.construct ⟨0, 0, false, 2000⟩) = true ∧
      ∃ s1 ret,
        block 64 (set_cfg 64 mpsc_hybrid_wait.construct ⟨0, 0, false, 2000⟩) wait_env.quiet
          = some (s1, ret) ∧
        (ret = true ↔
          block_wait_outcome (set_cfg 64 mpsc_hybrid_wait.construct ⟨0, 0, false, 2000⟩)
            wait_env.quiet = wait_outcome.timed_out) ∧
        (ret = false ↔
          block_wait_outcome (set_cfg 64 mpsc_hybrid_wait.construct ⟨0, 0, false, 2000⟩)
            wait_env.quiet = wait_outcome.notified) ∧
        s1.m_state = state.unblocked ∧
        s1.m_spins = (set_cfg 64 mpsc_hybrid_wait.construct ⟨0, 0, false, 2000⟩).m_spins ∧
        s1.m_yields = (set_cfg 64 mpsc_hybrid_wait.construct ⟨0, 0, false, 2000⟩).m_yields ∧
        s1.m_cfg = (set_cfg 64 mpsc_hybrid_wait.construct ⟨0, 0, false, 2000⟩).m_cfg :=
  ⟨by decide,
    block_phase_three 64 (set_cfg 64 mpsc_hybrid_wait.construct ⟨0, 0, false, 2000⟩)
      wait_env.quiet (by decide)⟩

/-- The bound on a waiter with `spin_max = 1`, `yield_max = 0` and the calls `block()`,
`unblock()`, `block()`. -/
theorem ladder_bounded_witness :
    cfg_in_range 64 (set_cfg 64 mpsc_hybrid_wait.construct ⟨1, 0, false, 2000⟩).m_cfg ∧
      (set_cfg 64 mpsc_hybrid_wait.construct ⟨1, 0, false, 2000⟩).m_cfg.never_block = false ∧
      (∀ c ∈ [call.block wait_env.quiet, call.unblock, call.block wait_env.quiet],
        c.in_episode = true) ∧
      (((unblock (set_cfg 64 mpsc_hybrid_wait.construct ⟨1, 0, false, 2000⟩)).m_spins
            = (set_cfg 64 mpsc_hybrid_wait.construct ⟨1, 0, false, 2000⟩).m_spins ∧
          (unblock (set_cfg 64 mpsc_hybrid_wait.construct ⟨1, 0, false, 2000⟩)).m_yields
            = (set_cfg 64 mpsc_hybrid_wait.construct ⟨1, 0, false, 2000⟩).m_yields ∧
          (unblock (set_cfg 64 mpsc_hybrid_wait.construct ⟨1, 0, false, 2000⟩)).m_cfg
            = (set_cfg 64 mpsc_hybrid_wait.construct ⟨1, 0, false, 2000⟩).m_cfg) ∧
        ∃ s1 tr,
          run 64 (set_cfg 64 mpsc_hybrid_wait.construct ⟨1, 0, false, 2000⟩)
            [call.block wait_env.quiet, call.unblock, call.block wait_env.quiet]
            = some (s1, tr) ∧
          tr.length =
            [call.block wait_env.quiet, call.unblock, call.block wait_env.quiet].countP
              call.is_block ∧
          (tr.filter (fun x => decide (x.1 ≠ phase.block))).length
            ≤ (set_cfg 64 mpsc_hybrid_wait.construct ⟨1, 0, false, 2000⟩).m_cfg.spin_max +
              (set_cfg 64 mpsc_hybrid_wait.construct ⟨1, 0, false, 2000⟩).m_cfg.yield_max) :=
  ⟨by decide, by decide, by decide,
    ladder_bounded 64 (set_cfg 64 mpsc_hybrid_wait.construct ⟨1, 0, false, 2000⟩)
      [call.block wait_env.quiet, call.unblock, call.block wait_env.quiet]
      (by decide) (by decide) (by decide)⟩

/-- Both halves of the idempotence of `unblock()` on the default-constructed waiter. -/
theorem unblock_idempotent_witness :
    mpsc_hybrid_wait.construct.m_state = state.unblocked ∧
      unblock (unblock mpsc_hybrid_wait.construct) = unblock mpsc_hybrid_wait.construct ∧
      unblock mpsc_hybrid_wait.construct = mpsc_hybrid_wait.construct :=
  ⟨by decide, (unblock_idempotent mpsc_hybrid_wait.construct).1,
    (unblock_idempotent mpsc_hybrid_wait.construct).2 (by decide)⟩

/-- The ladder on a waiter with `spin_max = 1`, `yield_max = 1` and the calls `block()`,
`unblock()`, `block()`, `block()`. -/
theorem ladder_monotone_in_episode_witness :
    (∀ c ∈ [call.block wait_env.quiet, call.unblock, call.block wait_env.quiet,
          call.block wait_env.quiet], c.in_episode = true) ∧
      ((∃ s1 tr,
          run 64 (set_cfg 64 mpsc_hybrid_wait.construct ⟨1, 1, false, 2000⟩)
            [call.block wait_env.quiet, call.unblock, call.block wait_env.quiet,
              call.block wait_env.quiet] = some (s1, tr) ∧
          List.Pairwise (fun p q => p.rank ≤ q.rank) (tr.map Prod.fst) ∧
          (∀ i j : Fin tr.length, i < j →
            ((tr.get i).1 = phase.yield → (tr.get j).1 ≠ phase.spin) ∧
            ((tr.get i).1 = phase.block → (tr.get j).1 = phase.block))) ∧
        block_phase (reset (set_cfg 64 mpsc_hybrid_wait.construct ⟨1, 1, false, 2000⟩)) =
          (if 0 < (set_cfg 64 mpsc_hybrid_wait.construct ⟨1, 1, false, 2000⟩).m_cfg.spin_max
           then phase.spin
           else if
             0 < (set_cfg 64 mpsc_hybrid_wait.construct ⟨1, 1, false, 2000⟩).m_cfg.yield_max
           then phase.yield else phase.block)) :=
  ⟨by decide,
    ladder_monotone_in_episode 64 (set_cfg 64 mpsc_hybrid_wait.construct ⟨1, 1, false, 2000⟩)
      [call.block wait_env.quiet, call.unblock, call.block wait_env.quiet,
        call.block wait_env.quiet] (by decide)⟩

/-! ## The configuration and the constructor -/

/-- C11: after `set_cfg (cfg)`, `get_cfg()` returns `cfg` itself when `cfg.never_block` is
false and `cfg` with `yield_max` replaced by `(uword) -1`, the largest `uword`
`2 ^ bits - 1`, when it is true; `never_blocks()` returns `cfg.never_block`; the two
counters and `m_state` are left as they were. -/
theorem set_cfg_effect (bits : Nat) (s : mpsc_hybrid_wait) (cfg : mpsc_hybrid_wait_cfg) :
    get_cfg (set_cfg bits s cfg) =
        (if cfg.never_block then { cfg with yield_max := uword_max bits } else cfg) ∧
      uword_max bits = 2 ^ bits - 1 ∧
      (get_cfg (set_cfg bits s cfg)).spin_max = cfg.spin_max ∧
      (get_cfg (set_cfg bits s cfg)).never_block = cfg.never_block ∧
      (get_cfg (set_cfg bits s cfg)).block_us = cfg.block_us ∧
      never_blocks (set_cfg bits s cfg) = cfg.never_block ∧
      (set_cfg bits s cfg).m_spins = s.m_spins ∧
      (set_cfg bits s cfg).m_yields = s.m_yields ∧
      (set_cfg bits s cfg).m_state = s.m_state := by
  refine ⟨?_, rfl, rfl, rfl, rfl, rfl, rfl, rfl, rfl⟩
  obtain ⟨sp, y, nb, us⟩ := cfg
  cases nb
  · rfl
  · rfl

/-- C12: the default-constructed waiter has `spin_max = 50000`, `yield_max = 200`,
`never_block = false`, `block_us = 2000`, both counters zero and `m_state` unblocked. -/
theorem construct_defaults :
    get_cfg mpsc_hybrid_wait.construct =
        { spin_max := 50000, yield_max := 200, never_block := false, block_us := 2000 } ∧
      never_blocks mpsc_hybrid_wait.construct = false ∧
      mpsc_hybrid_wait.construct.m_spins = 0 ∧
      mpsc_hybrid_wait.construct.m_yields = 0 ∧
      mpsc_hybrid_wait.construct.m_state = state.unblocked :=
  ⟨rfl, rfl, rfl, rfl, rfl⟩

/-! ## The spin step and the yield step -/

/-- C13: in every state with the spin counter below `spin_max` (a `uword`), `block()`
returns false and the new state is the old one with `m_spins` one higher: the yield
counter, `m_state` and the configuration are as they were. -/
theorem spin_step (bits : Nat) (s : mpsc_hybrid_wait) (env : wait_env)
    (hr : cfg_in_range bits s.m_cfg) (hlt : s.m_spins < s.m_cfg.spin_max) :
    block bits s env = some ({ s with m_spins := s.m_spins + 1 }, false) ∧
      ∃ s1, block bits s env = some (s1, false) ∧ s1.m_spins = s.m_spins + 1 ∧
        s1.m_yields = s.m_yields ∧ s1.m_state = s.m_state ∧ s1.m_cfg = s.m_cfg := by
  have hm : (s.m_spins + 1) % 2 ^ bits = s.m_spins + 1 :=
    Nat.mod_eq_of_lt (by have := hr.1; omega)
  have hb : block bits s env = some ({ s with m_spins := s.m_spins + 1 }, false) := by
    rw [block_spin bits s env ((block_phase_spin_iff s).mpr hlt), hm]
  exact ⟨hb, _, hb, rfl, rfl, rfl, rfl⟩

/-- The spin step on the default-constructed waiter. -/
theorem spin_step_witness :
    cfg_in_range 64 mpsc_hybrid_wait.construct.m_cfg ∧
      mpsc_hybrid_wait.construct.m_spins < mpsc_hybrid_wait.construct.m_cfg.spin_max ∧
      block 64 mpsc_hybrid_wait.construct wait_env.quiet =
        some ({ mpsc_hybrid_wait.construct with
                m_spins := mpsc_hybrid_wait.construct.m_spins + 1 }, false) :=
  ⟨by decide, by decide,
    (spin_step 64 mpsc_hybrid_wait.construct wait_env.quiet (by decide) (by decide)).1⟩

/-- C14: in every state with the spin counter not below `spin_max` and the yield counter
below `yield_max` (a `uword`), `block()` returns false and the new state is the old one with
`m_yields` one higher when `never_block` is false and the same when `never_block` is true:
the spin counter, `m_state` and the configuration are as they were. -/
theorem yield_step (bits : Nat) (s : mpsc_hybrid_wait) (env : wait_env)
    (hr : cfg_in_range bits s.m_cfg) (hsp : ¬ s.m_spins < s.m_cfg.spin_max)
    (hy : s.m_yields < s.m_cfg.yield_max) :
    block bits s env =
        some ({ s with m_yields :=
                  if s.m_cfg.never_block then s.m_yields else s.m_yields + 1 }, false) ∧
      ∃ s1, block bits s env = some (s1, false) ∧
        s1.m_yields = (if s.m_cfg.never_block then s.m_yields else s.m_yields + 1) ∧
        s1.m_spins = s.m_spins ∧ s1.m_state = s.m_state ∧ s1.m_cfg = s.m_cfg := by
  have hp : block_phase s = phase.yield :=
    (block_phase_yield_iff s).mpr ⟨by omega, hy⟩
  have hlt := hr.2.1
  have hb : block bits s env =
      some ({ s with m_yields :=
                if s.m_cfg.never_block then s.m_yields else s.m_yields + 1 }, false) := by
    rw [block_yield bits s env hp]
    cases hnb : s.m_cfg.never_block
    · have hm : (s.m_yields + 1) % 2 ^ bits = s.m_yields + 1 := Nat.mod_eq_of_lt (by omega)
      simp [hm]
    · have hm : s.m_yields % 2 ^ bits = s.m_yields := Nat.mod_eq_of_lt (by omega)
      simp [hm]
  exact ⟨hb, _, hb, rfl, rfl, rfl, rfl⟩

/-- The yield step on waiters with `spin_max = 0` and `yield_max = 3`, one with
`never_block` false and one with `never_block` installed by `set_cfg`. -/
theorem yield_step_witness :
    (cfg_in_range 64 (set_cfg 64 mpsc_hybrid_wait.construct ⟨0, 3, false, 2000⟩).m_cfg ∧
      ¬ (set_cfg 64 mpsc_hybrid_wait.construct ⟨0, 3, false, 2000⟩).m_spins <
          (set_cfg 64 mpsc_hybrid_wait.construct ⟨0, 3, false, 2000⟩).m_cfg.spin_max ∧
      (set_cfg 64 mpsc_hybrid_wait.construct ⟨0, 3, false, 2000⟩).m_yields <
          (set_cfg 64 mpsc_hybrid_wait.construct ⟨0, 3, false, 2000⟩).m_cfg.yield_max ∧
      ∃ s1, block 64 (set_cfg 64 mpsc_hybrid_wait.construct ⟨0, 3, false, 2000⟩)
          wait_env.quiet = some (s1, false) ∧ s1.m_yields = 1) ∧
      ∃ s1, block 64 (set_cfg 64 mpsc_hybrid_wait.construct ⟨0, 3, true, 2000⟩)
          wait_env.quiet = some (s1, false) ∧ s1.m_yields = 0 := by
  refine ⟨⟨by decide, by decide, by decide, ?_⟩, ?_⟩
  · obtain ⟨s1, h1, h2, _⟩ :=
      (yield_step 64 (set_cfg 64 mpsc_hybrid_wait.construct ⟨0, 3, false, 2000⟩)
        wait_env.quiet (by decide) (by decide) (by decide)).2
    exact ⟨s1, h1, h2⟩
  · obtain ⟨s1, h1, h2, _⟩ :=
      (yield_step 64 (set_cfg 64 mpsc_hybrid_wait.construct ⟨0, 3, true, 2000⟩)
        wait_env.quiet (by decide) (by decide) (by decide)).2
    exact ⟨s1, h1, h2⟩

/-! ## The assertion of `block()` -/

/-- C16: the assertion of line 117 never fails.  Whatever the producers do and whenever they
do it (they only store `unblocked`; `blocked` is stored by the consumer alone, at line 111),
every `block()` call returns, and when the timed wait returned true (its predicate read
`unblocked`) the load of the assertion reads `unblocked`. -/
theorem assertion_never_fails (bits : Nat) (s : mpsc_hybrid_wait) (env : wait_env) :
    block bits s env ≠ none ∧
      ((wait_for { s with m_state := state.blocked } env).2 = true →
        (producer_stores env.before_assert
          (wait_for { s with m_state := state.blocked } env).1).m_state = state.unblocked) := by
  constructor
  · obtain ⟨s1, ret, h⟩ := block_returns bits s env
    rw [h]
    exact fun hn => Option.noConfusion hn
  · intro hw
    obtain ⟨st, h1, h2⟩ := wait_for_frame { s with m_state := state.blocked } env
    obtain ⟨st2, h3, h4⟩ := producer_stores_frame env.before_assert
      (wait_for { s with m_state := state.blocked } env).1
    rw [h3]
    exact h4 (by rw [h1]; exact h2 hw)

/-- The assertion in a wait that a producer ends: both budgets zero, and an `unblock()`
store that lands during the yield of the first predicate evaluation. -/
theorem assertion_never_fails_witness :
    (wait_for { set_cfg 64 mpsc_hybrid_wait.construct ⟨0, 0, false, 2000⟩ with
                m_state := state.blocked }
        { on_entry := ⟨false, true⟩, wakeups := [], after_timeout := ⟨false, false⟩,
          before_assert := false }).2 = true ∧
      (producer_stores false
        (wait_for { set_cfg 64 mpsc_hybrid_wait.construct ⟨0, 0, false, 2000⟩ with
                    m_state := state.blocked }
          { on_entry := ⟨false, true⟩, wakeups := [], after_timeout := ⟨false, false⟩,
            before_assert := false }).1).m_state = state.unblocked :=
  ⟨by decide,
    (assertion_never_fails 64 (set_cfg 64 mpsc_hybrid_wait.construct ⟨0, 0, false, 2000⟩)
      { on_entry := ⟨false, true⟩, wakeups := [], after_timeout := ⟨false, false⟩,
        before_assert := false }).2 (by decide)⟩

/-! ## The counters stay within the budgets -/

theorem ladder_invariant_step (bits : Nat) (s : mpsc_hybrid_wait) (c : call)
    (hr : cfg_in_range bits s.m_cfg) (hi : ladder_invariant s) (hc : c.keeps_cfg = true) :
    ∃ s1 tr, step bits s c = some (s1, tr) ∧ s1.m_cfg = s.m_cfg ∧ ladder_invariant s1 := by
  obtain ⟨h1, h2, h3⟩ := hi
  obtain ⟨hsp, hym, _⟩ := hr
  cases c with
  | set_cfg cfg => exact absurd hc (by simp [call.keeps_cfg])
  | reset =>
    refine ⟨reset s, [], rfl, rfl, ?_⟩
    exact ⟨Nat.zero_le _, Nat.zero_le _, fun h => absurd h (Nat.lt_irrefl 0)⟩
  | unblock => exact ⟨unblock s, [], rfl, rfl, h1, h2, h3⟩
  | block env =>
    cases hp : block_phase s
    · refine ⟨_, _, step_block_eq bits s _ env _ (block_spin bits s env hp), rfl, ?_⟩
      rw [block_phase_spin_iff] at hp
      have hm : (s.m_spins + 1) % 2 ^ bits = s.m_spins + 1 := Nat.mod_eq_of_lt (by omega)
      refine ⟨?_, h2, fun h => ?_⟩
      · show (s.m_spins + 1) % 2 ^ bits ≤ s.m_cfg.spin_max
        omega
      · have := h3 h
        omega
    · refine ⟨_, _, step_block_eq bits s _ env _ (block_yield bits s env hp), rfl, ?_⟩
      rw [block_phase_yield_iff] at hp
      refine ⟨h1, ?_, fun _ => Nat.le_antisymm h1 hp.1⟩
      show (s.m_yields + (if !s.m_cfg.never_block then 1 else 0)) % 2 ^ bits
        ≤ s.m_cfg.yield_max
      have hle : s.m_yields + (if !s.m_cfg.never_block then 1 else 0) ≤ s.m_cfg.yield_max := by
        split_ifs <;> omega
      exact Nat.le_trans (Nat.mod_le _ _) hle
    · exact ⟨_, _, step_block_eq bits s _ env _ (block_block bits s env hp), rfl, h1, h2, h3⟩

theorem ladder_invariant_run (bits : Nat) (calls : List call) :
    ∀ s : mpsc_hybrid_wait, cfg_in_range bits s.m_cfg → ladder_invariant s →
      (∀ c ∈ calls, c.keeps_cfg = true) →
      ∃ s1 tr, run bits s calls = some (s1, tr) ∧ s1.m_cfg = s.m_cfg ∧ ladder_invariant s1 := by
  induction calls with
  | nil => intro s _ hi _; exact ⟨s, [], rfl, rfl, hi⟩
  | cons c cs ih =>
    intro s hr hi hcs
    obtain ⟨s1, t1, h1, hc1, hi1⟩ :=
      ladder_invariant_step bits s c hr hi (hcs c (List.mem_cons_self c cs))
    obtain ⟨s2, t2, h2, hc2, hi2⟩ :=
      ih s1 (hc1 ▸ hr) hi1 (fun d hd => hcs d (List.mem_cons_of_mem c hd))
    exact ⟨s2, t1 ++ t2, run_cons_eq bits s s1 s2 c cs t1 t2 h1 h2, hc2.trans hc1, hi2⟩

/-- C17: the constructed waiter, also right after a `set_cfg`, has its counters within the
budgets in the sense of `ladder_invariant`; and from a waiter that has, with a configuration
that fits the `uword`, every sequence of `reset()`, `block()` and `unblock()` calls returns,
keeps the configuration and keeps the invariant: `m_spins ≤ spin_max`,
`m_yields ≤ yield_max`, and `m_yields > 0` only with `m_spins = spin_max`.  In the state
reached, the counter that the next `block()` increments is below the largest `uword`, so
the increment does not wrap. -/
theorem ladder_invariant_preserved (bits : Nat) (s : mpsc_hybrid_wait) (calls : List call)
    (hr : cfg_in_range bits s.m_cfg) (hi : ladder_invariant s)
    (hc : ∀ c ∈ calls, c.keeps_cfg = true) :
    ladder_invariant mpsc_hybrid_wait.construct ∧
      (∀ cfg, ladder_invariant (set_cfg bits mpsc_hybrid_wait.construct cfg)) ∧
      ∃ s1 tr, run bits s calls = some (s1, tr) ∧ s1.m_cfg = s.m_cfg ∧
        (s1.m_spins ≤ s1.m_cfg.spin_max ∧ s1.m_yields ≤ s1.m_cfg.yield_max ∧
          (0 < s1.m_yields → s1.m_spins = s1.m_cfg.spin_max)) ∧
        (block_phase s1 = phase.spin →
          s1.m_spins + 1 < 2 ^ bits ∧ (s1.m_spins + 1) % 2 ^ bits = s1.m_spins + 1) ∧
        (block_phase s1 = phase.yield →
          s1.m_yields + 1 < 2 ^ bits ∧ (s1.m_yields + 1) % 2 ^ bits = s1.m_yields + 1) := by
  refine ⟨by decide, fun cfg => ?_, ?_⟩
  · exact ⟨Nat.zero_le _, Nat.zero_le _, fun h => absurd h (Nat.lt_irrefl 0)⟩
  · obtain ⟨s1, tr, h1, hc1, hi1⟩ := ladder_invariant_run bits calls s hr hi hc
    have hr1 : cfg_in_range bits s1.m_cfg := hc1 ▸ hr
    refine ⟨s1, tr, h1, hc1, hi1, fun hp => ?_, fun hp => ?_⟩
    · rw [block_phase_spin_iff] at hp
      have hlt : s1.m_spins + 1 < 2 ^ bits := by have := hr1.1; omega
      exact ⟨hlt, Nat.mod_eq_of_lt hlt⟩
    · rw [block_phase_yield_iff] at hp
      have hlt : s1.m_yields + 1 < 2 ^ bits := by have := hr1.2.1; omega
      exact ⟨hlt, Nat.mod_eq_of_lt hlt⟩

/-- The invariant after the calls `block()`, `block()`, `unblock()`, `reset()`, `block()` on
a constructed waiter with `spin_max = 1` and `yield_max = 1`. -/
theorem ladder_invariant_preserved_witness :
    cfg_in_range 64 (set_cfg 64 mpsc_hybrid_wait.construct ⟨1, 1, false, 2000⟩).m_cfg ∧
      ladder_invariant (set_cfg 64 mpsc_hybrid_wait.construct ⟨1, 1, false, 2000⟩) ∧
      (∀ c ∈ [call.block wait_env.quiet, call.block wait_env.quiet, call.unblock, call.reset,
          call.block wait_env.quiet], c.keeps_cfg = true) ∧
      ∃ s1 tr,
        run 64 (set_cfg 64 mpsc_hybrid_wait.construct ⟨1, 1, false, 2000⟩)
          [call.block wait_env.quiet, call.block wait_env.quiet, call.unblock, call.reset,
            call.block wait_env.quiet] = some (s1, tr) ∧
        s1.m_cfg = (set_cfg 64 mpsc_hybrid_wait.construct ⟨1, 1, false, 2000⟩).m_cfg ∧
        (s1.m_spins ≤ s1.m_cfg.spin_max ∧ s1.m_yields ≤ s1.m_cfg.yield_max ∧
          (0 < s1.m_yields → s1.m_spins = s1.m_cfg.spin_max)) ∧
        (block_phase s1 = phase.spin →
          s1.m_spins + 1 < 2 ^ 64 ∧ (s1.m_spins + 1) % 2 ^ 64 = s1.m_spins + 1) ∧
        (block_phase s1 = phase.yield →
          s1.m_yields + 1 < 2 ^ 64 ∧ (s1.m_yields + 1) % 2 ^ 64 = s1.m_yields + 1) :=
  ⟨by decide, by decide, by decide,
    (ladder_invariant_preserved 64 (set_cfg 64 mpsc_hybrid_wait.construct ⟨1, 1, false, 2000⟩)
      [call.block wait_env.quiet, call.block wait_env.quiet, call.unblock, call.reset,
        call.block wait_env.quiet] (by decide) (by decide) (by decide)).2.2⟩

/-! ## `ufo::literal` -/

/-- C18: a literal built from a character array of `N ≥ 1` elements exists, its `size()` is
`N - 1`, and for every index `i < N` its `operator[] (i)` is the `i`-th character of the
array. -/
theorem literal_size_and_index (arr : List Char) (hN : arr.length ≥ 1) :
    ∃ l, literal.construct arr = some l ∧ l.size = arr.length - 1 ∧
      ∀ (i : Nat) (hi : i < arr.length), l.operator_index i = some (arr.get ⟨i, hi⟩) := by
  refine ⟨{ m_lit := arr, m_size := arr.length - 1 }, ?_, rfl, fun i hi => ?_⟩
  · simp [literal.construct, hN]
  · simp [literal.operator_index, List.getElem?_eq_getElem hi]

/-- The literal of the array `{'a', 'b', 0}`, the string literal `"ab"`. -/
theorem literal_size_and_index_witness :
    ['a', 'b', Char.ofNat 0].length ≥ 1 ∧
      ∃ l, literal.construct ['a', 'b', Char.ofNat 0] = some l ∧
        l.size = ['a', 'b', Char.ofNat 0].length - 1 ∧
        ∀ (i : Nat) (hi : i < ['a', 'b', Char.ofNat 0].length),
          l.operator_index i = some (['a', 'b', Char.ofNat 0].get ⟨i, hi⟩) :=
  ⟨by decide, literal_size_and_index ['a', 'b', Char.ofNat 0] (by decide)⟩

end ufo
